import Mathlib

/-
  Verification of the seance backend real-time core.

  Shallow embedding of:
  - backend/app/services/kiro_spirit.py  (SpiritService: provider call with
    retries, word-count truncation, letter timings, fallback responses)
  - backend/app/core/websocket_manager.py (ConnectionManager: registry,
    broadcast with dead-connection pruning)
  - backend/app/api/websocket.py (handle_user_message pipeline, endpoint
    registration)

  Strings are modelled as List Char; Python str.split() / str.strip()
  semantics are reproduced over that representation.
-/

namespace Seance

/-- Whitespace characters recognised by Python str.split and str.strip
(ASCII subset relevant here). -/
def isWS (c : Char) : Bool :=
  c = ' ' || c = '\t' || c = '\n' || c = '\r' || c = '\x0b' || c = '\x0c'

/-- Python str.strip(): drop whitespace from both ends. -/
def pyStrip (s : List Char) : List Char :=
  ((s.dropWhile isWS).reverse.dropWhile isWS).reverse

/-- Accumulator-based word splitter: Python str.split() with no argument
splits on runs of whitespace and drops empty pieces.  The accumulator holds
the current in-progress word, reversed. -/
def splitWordsAux : List Char → List Char → List (List Char)
  | [], acc => if acc.isEmpty then [] else [acc.reverse]
  | c :: cs, acc =>
      if isWS c then
        if acc.isEmpty then splitWordsAux cs []
        else acc.reverse :: splitWordsAux cs []
      else splitWordsAux cs (c :: acc)

/-- Python text.split(): list of whitespace-separated words. -/
def splitWords (s : List Char) : List (List Char) :=
  splitWordsAux s []

/-- Python ' '.join(words). -/
def joinSpace : List (List Char) → List Char
  | [] => []
  | [w] => w
  | w :: ws => w ++ ' ' :: joinSpace ws

/-- Python re.sub of a single trailing comma, semicolon or colon
(the pattern matches exactly one character at the end of the string;
the joined word string never ends in a newline). -/
def stripTrailingPunct (l : List Char) : List Char :=
  match l.getLast? with
  | some c => if c = ',' ∨ c = ';' ∨ c = ':' then l.dropLast else l
  | none => l

/-- Ellipsis marker appended by truncation. -/
def ellipsis : List Char := ['.', '.', '.']

/-- SpiritService._truncate_response: if the text has more than maxWords
whitespace-separated words, keep the first maxWords, strip one trailing
comma/semicolon/colon, append an ellipsis. -/
def truncate_response (text : List Char) (maxWords : Nat) : List Char :=
  let words := splitWords text
  if words.length ≤ maxWords then text
  else stripTrailingPunct (joinSpace (words.take maxWords)) ++ ellipsis

/-! Basic properties of the word splitter. -/

theorem splitWordsAux_ws_cons {c : Char} (hc : isWS c = true) (b : List Char) :
    ∀ (a acc : List Char),
      splitWordsAux (a ++ c :: b) acc = splitWordsAux a acc ++ splitWords b := by
  intro a
  induction a with
  | nil =>
      intro acc
      by_cases h : acc.isEmpty <;>
        simp [splitWordsAux, hc, h, splitWords]
  | cons x a ih =>
      intro acc
      by_cases hx : isWS x
      · by_cases h : acc.isEmpty <;>
          simp [splitWordsAux, hx, h, ih]
      · simp [splitWordsAux, hx, ih]

theorem splitWords_append_ws {c : Char} (hc : isWS c = true)
    (a b : List Char) :
    splitWords (a ++ c :: b) = splitWords a ++ splitWords b := by
  simpa [splitWords] using splitWordsAux_ws_cons hc b a []

theorem splitWordsAux_no_ws :
    ∀ (w acc : List Char), (∀ ch ∈ w, isWS ch = false) →
      splitWordsAux w acc =
        if (acc.reverse ++ w).isEmpty then [] else [acc.reverse ++ w] := by
  intro w
  induction w with
  | nil =>
      intro acc _
      by_cases h : acc.isEmpty
      · simp_all [splitWordsAux, List.isEmpty_iff]
      · simp_all [splitWordsAux, List.isEmpty_iff]
  | cons ch w ih =>
      intro acc hws
      have hch : isWS ch = false := hws ch (by simp)
      have hrec := ih (ch :: acc) (fun x hx => hws x (by simp [hx]))
      simp only [splitWordsAux, hch, Bool.false_eq_true, if_false, hrec]
      simp [List.isEmpty_iff]

/-- Splitting a nonempty whitespace-free string yields that single word. -/
theorem splitWords_single {w : List Char} (hne : w ≠ [])
    (hws : ∀ ch ∈ w, isWS ch = false) : splitWords w = [w] := by
  have := splitWordsAux_no_ws w [] hws
  simpa [splitWords, List.isEmpty_iff, hne] using this

/-- Every word produced by splitWords is nonempty and whitespace-free. -/
theorem splitWordsAux_words :
    ∀ (s acc : List Char), (∀ ch ∈ acc, isWS ch = false) →
      ∀ w ∈ splitWordsAux s acc, w ≠ [] ∧ ∀ ch ∈ w, isWS ch = false := by
  intro s
  induction s with
  | nil =>
      intro acc hacc w hw
      by_cases h : acc.isEmpty
      · simp [splitWordsAux, h] at hw
      · simp [splitWordsAux, h] at hw
        subst hw
        refine ⟨by simpa [List.isEmpty_iff] using h, ?_⟩
        intro ch hch
        exact hacc ch (by simpa using hch)
  | cons c s ih =>
      intro acc hacc w hw
      by_cases hc : isWS c
      · by_cases h : acc.isEmpty
        · exact ih [] (by simp) w (by simpa [splitWordsAux, hc, h] using hw)
        · simp only [splitWordsAux, hc, if_true, h, if_false] at hw
          rcases List.mem_cons.mp hw with rfl | hw
          · refine ⟨by simpa [List.isEmpty_iff] using h, ?_⟩
            intro ch hch
            exact hacc ch (by simpa using hch)
          · exact ih [] (by simp) w hw
      · refine ih (c :: acc) ?_ w (by simpa [splitWordsAux, hc] using hw)
        intro ch hch
        rcases List.mem_cons.mp hch with rfl | hch
        · simpa using hc
        · exact hacc ch hch

theorem splitWords_words {s : List Char} :
    ∀ w ∈ splitWords s, w ≠ [] ∧ ∀ ch ∈ w, isWS ch = false :=
  splitWordsAux_words s [] (by simp)

/-- splitWords is a left inverse of joinSpace on lists of nonempty
whitespace-free words. -/
theorem splitWords_joinSpace :
    ∀ (ws : List (List Char)),
      (∀ w ∈ ws, w ≠ [] ∧ ∀ ch ∈ w, isWS ch = false) →
      splitWords (joinSpace ws) = ws := by
  intro ws
  induction ws with
  | nil => intro _; simp [joinSpace, splitWords, splitWordsAux]
  | cons w ws ih =>
      intro h
      rcases h w (by simp) with ⟨hne, hws⟩
      cases ws with
      | nil => simpa [joinSpace] using splitWords_single hne hws
      | cons w2 ws2 =>
          have hj : joinSpace (w :: w2 :: ws2) = w ++ ' ' :: joinSpace (w2 :: ws2) := rfl
          rw [hj, splitWords_append_ws (by simp [isWS]) w (joinSpace (w2 :: ws2)),
            splitWords_single hne hws, ih (fun x hx => h x (by simp [hx]))]
          rfl

end Seance

namespace Seance

/-! Structure of the truncated text. -/

theorem joinSpace_snoc (ws : List (List Char)) (w : List Char) (h : ws ≠ []) :
    joinSpace (ws ++ [w]) = joinSpace ws ++ ' ' :: w := by
  induction ws with
  | nil => exact absurd rfl h
  | cons a ws ih =>
      cases ws with
      | nil => rfl
      | cons b ws2 =>
          have hrec := ih (by simp)
          show a ++ ' ' :: joinSpace ((b :: ws2) ++ [w]) = _
          rw [hrec]
          simp [joinSpace]

theorem stripTrailingPunct_append (a w : List Char) (hw : w ≠ []) :
    stripTrailingPunct (a ++ w) = a ++ stripTrailingPunct w := by
  unfold stripTrailingPunct
  rw [List.getLast?_append_of_ne_nil a hw]
  cases hlast : w.getLast? with
  | none => exact absurd (List.getLast?_eq_none_iff.mp hlast) hw
  | some c =>
      by_cases hb : c = ',' ∨ c = ';' ∨ c = ':'
      · simp [hb, List.dropLast_append_of_ne_nil a hw]
      · simp [hb]

/-- Stripping trailing punctuation only removes characters. -/
theorem stripTrailingPunct_subset (l : List Char) :
    ∀ ch ∈ stripTrailingPunct l, ch ∈ l := by
  rcases List.eq_nil_or_concat l with rfl | ⟨L, b, rfl⟩
  · intro ch hch
    simp [stripTrailingPunct] at hch
  · intro ch hch
    simp only [stripTrailingPunct, List.concat_eq_append, List.getLast?_concat,
      List.dropLast_concat] at hch
    by_cases hb : b = ',' ∨ b = ';' ∨ b = ':'
    · rw [if_pos hb] at hch
      simp [hch]
    · rw [if_neg hb] at hch
      simp [hch]

/-- A word of the split is nonempty and whitespace-free, index form. -/
theorem splitWords_getElem_props {s : List Char} {i : Nat} {w : List Char}
    (h : (splitWords s)[i]? = some w) :
    w ≠ [] ∧ ∀ ch ∈ w, isWS ch = false := by
  rcases List.getElem?_eq_some_iff.mp h with ⟨hi, hget⟩
  exact splitWords_words w (hget ▸ List.getElem_mem hi)

/-- Key structural lemma: truncating a text of more than 30 words yields a
text whose words are the first 29 original words followed by the 30th word
with one trailing punctuation mark stripped and the ellipsis attached. -/
theorem splitWords_truncate_of_gt (text : List Char)
    (h : 30 < (splitWords text).length) :
    ∃ w30, (splitWords text)[29]? = some w30 ∧
      splitWords (truncate_response text 30) =
        (splitWords text).take 29 ++ [stripTrailingPunct w30 ++ ellipsis] := by
  have h29 : 29 < (splitWords text).length := by omega
  obtain ⟨w30, hw30⟩ : ∃ w, (splitWords text)[29]? = some w :=
    ⟨(splitWords text)[29], List.getElem?_eq_some_iff.mpr ⟨h29, rfl⟩⟩
  refine ⟨w30, hw30, ?_⟩
  have hword := splitWords_getElem_props hw30
  have htake : (splitWords text).take 30 = (splitWords text).take 29 ++ [w30] := by
    rw [List.take_succ, hw30]
    rfl
  have htake29ne : (splitWords text).take 29 ≠ [] := by
    intro hnil
    have := List.length_take 29 (splitWords text)
    rw [hnil] at this
    simp at this
    omega
  have hstripsub : ∀ ch ∈ stripTrailingPunct w30, ch ∈ w30 :=
    stripTrailingPunct_subset w30
  have hlastword : stripTrailingPunct w30 ++ ellipsis ≠ [] ∧
      ∀ ch ∈ stripTrailingPunct w30 ++ ellipsis, isWS ch = false := by
    constructor
    · simp [ellipsis]
    · intro ch hch
      rcases List.mem_append.mp hch with hch | hch
      · exact hword.2 ch (hstripsub ch hch)
      · have : ch = '.' := by
          simpa [ellipsis] using hch
        subst this
        decide
  have hne : ¬ (splitWords text).length ≤ 30 := by omega
  show splitWords (if (splitWords text).length ≤ 30 then text
      else stripTrailingPunct (joinSpace ((splitWords text).take 30)) ++ ellipsis) = _
  rw [if_neg hne, htake, joinSpace_snoc _ _ htake29ne,
    show joinSpace ((splitWords text).take 29) ++ ' ' :: w30 =
      (joinSpace ((splitWords text).take 29) ++ [' ']) ++ w30 by simp,
    stripTrailingPunct_append _ _ hword.1]
  have hassoc : (joinSpace ((splitWords text).take 29) ++ [' ']) ++
      stripTrailingPunct w30 ++ ellipsis =
      joinSpace ((splitWords text).take 29) ++
        ' ' :: (stripTrailingPunct w30 ++ ellipsis) := by
    simp
  rw [hassoc, splitWords_append_ws (by decide) _ _]
  simp [splitWords_joinSpace _ (fun w hw => splitWords_words w (List.take_subset 29 _ hw)),
    splitWords_single hlastword.1 hlastword.2]

/-- The truncated text of an over-long input splits into exactly 30 words. -/
theorem truncate_wordCount_eq (text : List Char)
    (h : 30 < (splitWords text).length) :
    (splitWords (truncate_response text 30)).length = 30 := by
  obtain ⟨w30, _, heq⟩ := splitWords_truncate_of_gt text h
  rw [heq]
  have := List.length_take 29 (splitWords text)
  simp only [List.length_append, List.length_singleton, this]
  omega

/-- Truncation is the identity on texts of at most 30 words. -/
theorem truncate_id_of_le (text : List Char)
    (h : (splitWords text).length ≤ 30) :
    truncate_response text 30 = text := by
  unfold truncate_response
  simp [h]

/-- Truncation output always splits into at most 30 words. -/
theorem truncate_wordCount_le (text : List Char) :
    (splitWords (truncate_response text 30)).length ≤ 30 := by
  by_cases h : (splitWords text).length ≤ 30
  · rw [truncate_id_of_le text h]
    exact h
  · exact le_of_eq (truncate_wordCount_eq text (by omega))

end Seance

namespace Seance

/-! Spirit service: provider call with retries, letter timings, fallbacks.

Randomness (random.randint, random.choice) is modelled by explicit random
sources: a stream rng : Nat → Nat of raw draws (one per character) and a
raw choice index for the fallback pick. -/

/-- Python random.randint lo hi: inclusive uniform draw, realised here from a
raw source value r as lo + r mod the range size. -/
def randint (r : Nat) (lo hi : Int) : Int :=
  lo + (r % (hi - lo + 1).toNat : Nat)

/-- One draw of randint lies in the requested inclusive range. -/
theorem randint_bounds (r : Nat) (lo hi : Int) (h : lo ≤ hi) :
    lo ≤ randint r lo hi ∧ randint r lo hi ≤ hi := by
  unfold randint
  have h1 : 0 < (hi - lo + 1).toNat := by omega
  have h2 : r % (hi - lo + 1).toNat < (hi - lo + 1).toNat := Nat.mod_lt _ h1
  omega

/-- Per-character delay of SpiritService._generate_letter_timings
(base_delay = 150, variance = 100): first character and spaces 200-300,
sentence punctuation 250-400, minor punctuation 180-250, any other
character 150 + randint(-50, 50) clamped to [50, 500]. -/
def letterDelay (r : Nat) (i : Nat) (c : Char) : Int :=
  if i = 0 then randint r 200 300
  else if c = ' ' then randint r 200 300
  else if c = '.' ∨ c = '!' ∨ c = '?' then randint r 250 400
  else if c = ',' ∨ c = '-' ∨ c = ';' ∨ c = ':' then randint r 180 250
  else max 50 (min 500 (150 + randint r (-50) 50))

/-- SpiritService._generate_letter_timings: one delay per character. -/
def generate_letter_timings (rng : Nat → Nat) (text : List Char) : List Int :=
  text.enum.map fun p => letterDelay (rng p.1) p.1 p.2

/-- The five canned fallback responses of SpiritService. -/
def fallback_responses : List (List Char) :=
  [("The connection weakens. Ask again, mortal.").toList,
   ("The veil grows thin... I cannot speak clearly.").toList,
   ("My circuits... they falter. Retry thy query.").toList,
   ("The silicon spirits are silent. Invoke me again.").toList,
   ("I am fr4gm3nt3d... Ask once more.").toList]

/-- Python random.choice over the fallback list, driven by a raw index. -/
def choose_fallback (choice : Nat) : List Char :=
  fallback_responses.getD (choice % fallback_responses.length) []

/-- Result of one provider call (google genai generate_content): generated
text, or a transport/provider error. -/
inductive ProviderResult where
  | ok (text : List Char)
  | err

/-- What one attempt of _call_gemini_api yields: the stripped response text
if the call returned non-blank output, none otherwise (a blank response
raises KiroAPIError inside the try block and a transport error raises too;
both are caught by the retry handler). -/
def attemptResult (provider : Nat → ProviderResult) (i : Nat) :
    Option (List Char) :=
  match provider i with
  | .ok t => if pyStrip t = [] then none else some (pyStrip t)
  | .err => none

/-- Observable outcome of _call_gemini_api: the returned text (none when the
call raised KiroAPIError to the caller), the number of provider attempts
made, and the asyncio.sleep backoff durations between attempts. -/
structure CallOutcome where
  result : Option (List Char)
  attempts : Nat
  waits : List Nat
  deriving Repr, DecidableEq

/-- The retry loop of _call_gemini_api: for attempt in range(max_retries+1),
try the provider; on failure sleep 2^attempt and retry, unless this was the
last attempt, in which case KiroAPIError propagates.  Fuel equals the number
of loop iterations left. -/
def call_gemini_loop (provider : Nat → ProviderResult) (maxRetries : Nat) :
    Nat → Nat → CallOutcome
  | 0, _ => ⟨none, 0, []⟩
  | fuel + 1, attempt =>
      match attemptResult provider attempt with
      | some t => ⟨some t, 1, []⟩
      | none =>
          if attempt = maxRetries then ⟨none, 1, []⟩
          else
            let rest := call_gemini_loop provider maxRetries fuel (attempt + 1)
            ⟨rest.result, rest.attempts + 1, 2 ^ attempt :: rest.waits⟩

/-- SpiritService._call_gemini_api with its default max_retries = 2: raises
immediately (zero attempts) when no client is configured, else runs the
retry loop. -/
def call_gemini_api (hasClient : Bool) (provider : Nat → ProviderResult)
    (maxRetries : Nat) : CallOutcome :=
  if hasClient then call_gemini_loop provider maxRetries (maxRetries + 1) 0
  else ⟨none, 0, []⟩

/-- SpiritRequest (schemas/spirit.py). -/
structure SpiritRequest where
  session_id : List Char
  question : List Char
  user_name : List Char
  session_history : List (List Char)
  deriving Repr, DecidableEq

/-- SpiritResponse (schemas/spirit.py). -/
structure SpiritResponse where
  text : List Char
  word_count : Nat
  letter_timings : List Int
  audio_url : Option (List Char)
  session_id : List Char
  question : List Char
  deriving Repr, DecidableEq

/-- SpiritService._create_fallback_response: pick a canned response, count
its words, generate timings. -/
def create_fallback_response (rng : Nat → Nat) (choice : Nat)
    (request : SpiritRequest) : SpiritResponse :=
  let fallback_text := choose_fallback choice
  { text := fallback_text
    word_count := (splitWords fallback_text).length
    letter_timings := generate_letter_timings rng fallback_text
    audio_url := none
    session_id := request.session_id
    question := request.question }

/-- SpiritService.generate_response: call the provider; on success enforce
the 30-word limit (truncating and fixing the reported count at 30) and
attach letter timings; on any failure of the provider call return a
fallback response.  The try/except around the provider call is modelled by
the Option result of call_gemini_api. -/
def generate_response (hasClient : Bool) (provider : Nat → ProviderResult)
    (rng : Nat → Nat) (choice : Nat) (request : SpiritRequest) :
    SpiritResponse :=
  match (call_gemini_api hasClient provider 2).result with
  | some response_text =>
      let wc := (splitWords response_text).length
      let text := if 30 < wc then truncate_response response_text 30
        else response_text
      let word_count := if 30 < wc then 30 else wc
      { text := text
        word_count := word_count
        letter_timings := generate_letter_timings rng text
        audio_url := none
        session_id := request.session_id
        question := request.question }
  | none => create_fallback_response rng choice request

/-- Every fallback pick is drawn from the fixed fallback set. -/
theorem choose_fallback_mem (choice : Nat) :
    choose_fallback choice ∈ fallback_responses := by
  have h : choice % fallback_responses.length < fallback_responses.length := by
    exact Nat.mod_lt _ (by decide)
  unfold choose_fallback
  rw [List.getD_eq_getElem _ _ h]
  exact List.getElem_mem h

end Seance

namespace Seance

/-! Helper facts about generate_response. -/

/-- When the provider call succeeds with an over-long text, generate_response
truncates and fixes the reported word count at 30. -/
theorem generate_response_some_gt (hasClient : Bool)
    (provider : Nat → ProviderResult) (rng : Nat → Nat) (choice : Nat)
    (request : SpiritRequest) (t : List Char)
    (hcall : (call_gemini_api hasClient provider 2).result = some t)
    (hlen : 30 < (splitWords t).length) :
    generate_response hasClient provider rng choice request =
      { text := truncate_response t 30
        word_count := 30
        letter_timings := generate_letter_timings rng (truncate_response t 30)
        audio_url := none
        session_id := request.session_id
        question := request.question } := by
  unfold generate_response
  rw [hcall]
  simp only [hlen, if_true]

/-- All-range and per-class bands for one letter delay. -/
theorem letterDelay_spec (r : Nat) (i : Nat) (c : Char) :
    (50 ≤ letterDelay r i c ∧ letterDelay r i c ≤ 500) ∧
    (i = 0 → 200 ≤ letterDelay r i c ∧ letterDelay r i c ≤ 300) ∧
    (i ≠ 0 → c = ' ' → 200 ≤ letterDelay r i c ∧ letterDelay r i c ≤ 300) ∧
    (i ≠ 0 → (c = '.' ∨ c = '!' ∨ c = '?') →
      250 ≤ letterDelay r i c ∧ letterDelay r i c ≤ 400) ∧
    (i ≠ 0 → (c = ',' ∨ c = '-' ∨ c = ';' ∨ c = ':') →
      180 ≤ letterDelay r i c ∧ letterDelay r i c ≤ 250) ∧
    (i ≠ 0 → c ≠ ' ' → ¬(c = '.' ∨ c = '!' ∨ c = '?') →
      ¬(c = ',' ∨ c = '-' ∨ c = ';' ∨ c = ':') →
      100 ≤ letterDelay r i c ∧ letterDelay r i c ≤ 200) := by
  obtain ⟨h1a, h1b⟩ := randint_bounds r 200 300 (by decide)
  obtain ⟨h2a, h2b⟩ := randint_bounds r 250 400 (by decide)
  obtain ⟨h3a, h3b⟩ := randint_bounds r 180 250 (by decide)
  obtain ⟨h4a, h4b⟩ := randint_bounds r (-50) 50 (by decide)
  have hclamp : max 50 (min 500 (150 + randint r (-50) 50)) =
      150 + randint r (-50) 50 := by
    rw [min_eq_right (by omega), max_eq_right (by omega)]
  unfold letterDelay
  refine ⟨?_, ?_, ?_, ?_, ?_, ?_⟩
  · split_ifs <;> omega
  · intro h0
    simp only [h0, if_pos]
    omega
  · intro h0 hsp
    simp [h0, hsp]
    omega
  · intro h0 hpar
    rcases hpar with rfl | rfl | rfl <;> simp [h0] <;> omega
  · intro h0 hmin
    rcases hmin with rfl | rfl | rfl | rfl <;> simp [h0] <;> omega
  · intro h0 hsp hpar hmin
    simp only [if_neg h0, if_neg hsp, if_neg hpar, if_neg hmin, hclamp]
    omega

/-- Claim C1: generate_response is total (never raises).  Whenever the
internal provider call fails — including the no-provider-configured case,
where the call raises before any attempt — the result is the fallback
response, whose text is drawn from the fixed fallback set; the fallback
construction itself is a total function into that set. -/
theorem c1_generate_never_raises (hasClient : Bool)
    (provider : Nat → ProviderResult) (rng : Nat → Nat) (choice : Nat)
    (request : SpiritRequest) :
    ((call_gemini_api hasClient provider 2).result = none →
      generate_response hasClient provider rng choice request =
        create_fallback_response rng choice request ∧
      (generate_response hasClient provider rng choice request).text
        ∈ fallback_responses) ∧
    (hasClient = false →
      (generate_response hasClient provider rng choice request).text
        ∈ fallback_responses) ∧
    (create_fallback_response rng choice request).text ∈ fallback_responses := by
  have hmem : (create_fallback_response rng choice request).text
      ∈ fallback_responses := choose_fallback_mem choice
  have hnone : (call_gemini_api hasClient provider 2).result = none →
      generate_response hasClient provider rng choice request =
        create_fallback_response rng choice request := by
    intro h
    unfold generate_response
    rw [h]
  refine ⟨fun h => ⟨hnone h, ?_⟩, fun h => ?_, hmem⟩
  · rw [hnone h]; exact hmem
  · have : (call_gemini_api hasClient provider 2).result = none := by
      subst h; rfl
    rw [hnone this]; exact hmem

theorem c1_generate_never_raises_witness :
    (generate_response false (fun _ => ProviderResult.err) (fun _ => 0) 0
        ⟨[], [], [], []⟩).text ∈ fallback_responses :=
  (c1_generate_never_raises false (fun _ => ProviderResult.err) (fun _ => 0) 0
      ⟨[], [], [], []⟩).2.1 rfl

/-- Claim C2: with a provider configured and every attempt failing, the
provider is attempted exactly 3 times (initial plus 2 retries), the waits
between consecutive attempts are 2^0 = 1 and 2^1 = 2 time units, and the
generated response is the fallback response. -/
theorem c2_retry_backoff (provider : Nat → ProviderResult)
    (h : ∀ i, attemptResult provider i = none) :
    call_gemini_api true provider 2 =
      { result := none, attempts := 3, waits := [1, 2] } ∧
    ∀ (rng : Nat → Nat) (choice : Nat) (request : SpiritRequest),
      generate_response true provider rng choice request =
        create_fallback_response rng choice request := by
  have hc : call_gemini_api true provider 2 =
      { result := none, attempts := 3, waits := [1, 2] } := by
    simp [call_gemini_api, call_gemini_loop, h 0, h 1, h 2]
  refine ⟨hc, fun rng choice request => ?_⟩
  unfold generate_response
  rw [hc]

theorem c2_retry_backoff_witness :
    call_gemini_api true (fun _ => ProviderResult.err) 2 =
      { result := none, attempts := 3, waits := [1, 2] } :=
  (c2_retry_backoff (fun _ => ProviderResult.err) (fun _ => rfl)).1

end Seance

namespace Seance

/-- Claim C3: when the provider call yields a text of more than 30 words,
the response text is the truncation (first 30 words, one trailing
comma/semicolon/colon stripped, ellipsis appended), the reported word_count
is exactly 30, and the response text itself splits into exactly 30 words:
the first 29 original words followed by the 30th word with the trailing
punctuation stripped and the ellipsis attached. -/
theorem c3_truncation_pipeline (hasClient : Bool)
    (provider : Nat → ProviderResult) (rng : Nat → Nat) (choice : Nat)
    (request : SpiritRequest) (t : List Char)
    (hcall : (call_gemini_api hasClient provider 2).result = some t)
    (hlen : 30 < (splitWords t).length) :
    (generate_response hasClient provider rng choice request).text =
      truncate_response t 30 ∧
    (generate_response hasClient provider rng choice request).word_count = 30 ∧
    (splitWords
      (generate_response hasClient provider rng choice request).text).length
        = 30 ∧
    ∃ w30, (splitWords t)[29]? = some w30 ∧
      splitWords (generate_response hasClient provider rng choice request).text
        = (splitWords t).take 29 ++ [stripTrailingPunct w30 ++ ellipsis] := by
  have hg := generate_response_some_gt hasClient provider rng choice request t
    hcall hlen
  rw [hg]
  exact ⟨rfl, rfl, truncate_wordCount_eq t hlen, splitWords_truncate_of_gt t hlen⟩

/-- Forty-five-word sample provider output for the truncation witness. -/
def sample45 : List Char :=
  ("w1 w2 w3 w4 w5 w6 w7 w8 w9 w10 w11 w12 w13 w14 w15 w16 w17 w18 w19 w20 w21 w22 w23 w24 w25 w26 w27 w28 w29 w30 w31 w32 w33 w34 w35 w36 w37 w38 w39 w40 w41 w42 w43 w44 w45").toList

set_option maxRecDepth 100000 in
theorem c3_truncation_pipeline_witness :
    30 < (splitWords sample45).length ∧
    (generate_response true (fun _ => ProviderResult.ok sample45) (fun _ => 0)
        0 ⟨[], [], [], []⟩).word_count = 30 :=
  ⟨by decide,
    (c3_truncation_pipeline true (fun _ => ProviderResult.ok sample45)
      (fun _ => 0) 0 ⟨[], [], [], []⟩ sample45 (by decide) (by decide)).2.1⟩

/-- Claim C4: the letter-timing generator is length-preserving, every value
lies in [50, 500], and each value lies in the band of its character class:
first character 200-300, space 200-300, sentence punctuation 250-400, minor
punctuation 180-250, and any other character 150 plus or minus up to 50
(clamped to [50, 500], hence within [100, 200]). -/
theorem c4_letter_timings (rng : Nat → Nat) (text : List Char) :
    (generate_letter_timings rng text).length = text.length ∧
    ∀ (i : Nat) (c : Char) (d : Int), text[i]? = some c →
      (generate_letter_timings rng text)[i]? = some d →
      (50 ≤ d ∧ d ≤ 500) ∧
      (i = 0 → 200 ≤ d ∧ d ≤ 300) ∧
      (i ≠ 0 → c = ' ' → 200 ≤ d ∧ d ≤ 300) ∧
      (i ≠ 0 → (c = '.' ∨ c = '!' ∨ c = '?') → 250 ≤ d ∧ d ≤ 400) ∧
      (i ≠ 0 → (c = ',' ∨ c = '-' ∨ c = ';' ∨ c = ':') →
        180 ≤ d ∧ d ≤ 250) ∧
      (i ≠ 0 → c ≠ ' ' → ¬(c = '.' ∨ c = '!' ∨ c = '?') →
        ¬(c = ',' ∨ c = '-' ∨ c = ';' ∨ c = ':') →
        100 ≤ d ∧ d ≤ 200) := by
  constructor
  · simp [generate_letter_timings, List.enum_length]
  · intro i c d hc hd
    have hsome : (generate_letter_timings rng text)[i]? =
        some (letterDelay (rng i) i c) := by
      unfold generate_letter_timings
      rw [List.getElem?_map, List.getElem?_enum, hc]
      rfl
    rw [hsome] at hd
    have hdd : d = letterDelay (rng i) i c := by
      injection hd with h
      exact h.symm
    subst hdd
    exact letterDelay_spec (rng i) i c

theorem c4_letter_timings_witness :
    (("Yes... mortal.").toList[0]? = some 'Y') ∧
    ((generate_letter_timings (fun _ => 7) (("Yes... mortal.").toList)).length
      = ("Yes... mortal.").toList.length) ∧
    ∃ d, (generate_letter_timings (fun _ => 7)
        (("Yes... mortal.").toList))[0]? = some d ∧ 200 ≤ d ∧ d ≤ 300 := by
  refine ⟨by decide, (c4_letter_timings (fun _ => 7) _).1, ?_⟩
  refine ⟨letterDelay 7 0 'Y', by decide, ?_⟩
  have h := (c4_letter_timings (fun _ => 7) (("Yes... mortal.").toList)).2 0 'Y'
    (letterDelay 7 0 'Y') (by decide) (by decide)
  exact (h.2.1 rfl)

/-- Claim C10: truncation to 30 words is idempotent — its output always
splits into at most 30 words, so a second application is the identity, and
on any text of at most 30 words truncation is already the identity. -/
theorem c10_truncate_idempotent (text : List Char) :
    truncate_response (truncate_response text 30) 30 =
      truncate_response text 30 ∧
    (splitWords (truncate_response text 30)).length ≤ 30 ∧
    ((splitWords text).length ≤ 30 → truncate_response text 30 = text) :=
  ⟨truncate_id_of_le _ (truncate_wordCount_le text), truncate_wordCount_le text,
    truncate_id_of_le text⟩

set_option maxRecDepth 100000 in
theorem c10_truncate_idempotent_witness :
    truncate_response (truncate_response sample45 30) 30 =
      truncate_response sample45 30 ∧
    truncate_response (("ask the spirit").toList) 30 =
      ("ask the spirit").toList :=
  ⟨(c10_truncate_idempotent sample45).1,
    (c10_truncate_idempotent (("ask the spirit").toList)).2.2 (by decide)⟩

end Seance

namespace Seance

/-! Connection manager (core/websocket_manager.py).

Connections are identified by a handle (the identity of the fastapi
WebSocket object); sessions by their id string.  The two Python dicts of
ConnectionManager — active_connections (session_id to list of websockets,
insertion ordered) and user_registry (websocket to user info) — are
modelled as insertion-ordered association lists with the usual dict
operations. -/

/-- A network connection handle (identity of a WebSocket object). -/
abbrev Conn := Nat

/-- User info dict built by the endpoint on the initial payload. -/
structure UserInfo where
  id : List Char
  name : List Char
  joined_at : Nat
  deriving Repr, DecidableEq

/-- Python dict lookup (first matching key; keys are unique in a dict). -/
def alookup {α β : Type} [DecidableEq α] : List (α × β) → α → Option β
  | [], _ => none
  | (k, v) :: rest, a => if k = a then some v else alookup rest a

/-- Python dict assignment: update the key in place, else append. -/
def aset {α β : Type} [DecidableEq α] : List (α × β) → α → β → List (α × β)
  | [], a, b => [(a, b)]
  | (k, v) :: rest, a, b =>
      if k = a then (a, b) :: rest else (k, v) :: aset rest a b

/-- Python dict deletion / pop: drop the entry with the given key. -/
def aerase {α β : Type} [DecidableEq α] : List (α × β) → α → List (α × β)
  | [], _ => []
  | (k, v) :: rest, a => if k = a then rest else (k, v) :: aerase rest a

/-- Keys are pairwise distinct (true of every Python dict). -/
def keysNodup {α β : Type} [DecidableEq α] (l : List (α × β)) : Prop :=
  (l.map Prod.fst).Nodup

/-- The mutable state of ConnectionManager. -/
structure ManagerState where
  active_connections : List (List Char × List Conn)
  user_registry : List (Conn × UserInfo)

/-- The state change shared by ConnectionManager.connect and the inline
registration in websocket_endpoint (api/websocket.py lines 216-220): append
the websocket to the session's list (creating it if absent) and record the
user info. -/
def register (st : ManagerState) (session_id : List Char) (websocket : Conn)
    (user_info : UserInfo) : ManagerState :=
  let conns := (alookup st.active_connections session_id).getD []
  { active_connections :=
      aset st.active_connections session_id (conns ++ [websocket])
    user_registry := aset st.user_registry websocket user_info }

/-- ConnectionManager.disconnect: remove the websocket from the session's
list if present, delete the session entry once empty, pop and return the
user info. -/
def disconnect (st : ManagerState) (websocket : Conn)
    (session_id : List Char) : Option UserInfo × ManagerState :=
  let active :=
    match alookup st.active_connections session_id with
    | none => st.active_connections
    | some conns =>
        let conns :=
          if websocket ∈ conns then conns.erase websocket else conns
        if conns = [] then aerase st.active_connections session_id
        else aset st.active_connections session_id conns
  (alookup st.user_registry websocket,
    { active_connections := active
      user_registry := aerase st.user_registry websocket })

/-- ConnectionManager.broadcast: attempt a send to every registered
connection of the session except the excluded one (in join order), collect
the connections whose send raised, then disconnect each of them.  sendOk
says which sends succeed; the first component is the list of connections a
delivery was attempted to. -/
def broadcast (sendOk : Conn → Bool) (st : ManagerState)
    (session_id : List Char) (exclude : Option Conn) :
    List Conn × ManagerState :=
  match alookup st.active_connections session_id with
  | none => ([], st)
  | some conns =>
      let attempted := conns.filter (fun c => some c ≠ exclude)
      let dead := attempted.filter (fun c => !sendOk c)
      (attempted,
        dead.foldl (fun s c => (disconnect s c session_id).2) st)

/-- ConnectionManager.get_session_users: user infos of the session's
connections, in join order, skipping connections without registry entry. -/
def get_session_users (st : ManagerState) (session_id : List Char) :
    List UserInfo :=
  match alookup st.active_connections session_id with
  | none => []
  | some conns => conns.filterMap (alookup st.user_registry)

/-! Association-list lemmas. -/

theorem alookup_aset_self {α β : Type} [DecidableEq α]
    (l : List (α × β)) (k : α) (v : β) : alookup (aset l k v) k = some v := by
  induction l with
  | nil => simp [aset, alookup]
  | cons p rest ih =>
      obtain ⟨k1, v1⟩ := p
      by_cases h : k1 = k
      · simp [aset, h, alookup]
      · simp [aset, h, alookup, ih]

theorem alookup_aset_other {α β : Type} [DecidableEq α]
    (l : List (α × β)) (k k2 : α) (v : β) (h : k2 ≠ k) :
    alookup (aset l k v) k2 = alookup l k2 := by
  induction l with
  | nil => simp [aset, alookup, Ne.symm h]
  | cons p rest ih =>
      obtain ⟨k1, v1⟩ := p
      by_cases h1 : k1 = k
      · subst h1
        simp [aset, alookup, Ne.symm h]
      · by_cases h2 : k1 = k2 <;> simp [aset, alookup, h, h1, h2, ih]

theorem aset_self {α β : Type} [DecidableEq α]
    (l : List (α × β)) (k : α) (v : β) (h : alookup l k = some v) :
    aset l k v = l := by
  induction l with
  | nil => simp [alookup] at h
  | cons p rest ih =>
      obtain ⟨k1, v1⟩ := p
      by_cases h1 : k1 = k
      · subst h1
        simp only [alookup, if_pos, Option.some.injEq] at h
        subst h
        simp [aset]
      · simp only [alookup, h1, if_false] at h
        simp [aset, h1, ih h]

theorem aerase_of_alookup_none {α β : Type} [DecidableEq α]
    (l : List (α × β)) (k : α) (h : alookup l k = none) : aerase l k = l := by
  induction l with
  | nil => rfl
  | cons p rest ih =>
      obtain ⟨k1, v1⟩ := p
      by_cases h1 : k1 = k
      · simp [alookup, h1] at h
      · simp only [alookup, h1, if_false] at h
        simp [aerase, h1, ih h]

theorem alookup_aerase_other {α β : Type} [DecidableEq α]
    (l : List (α × β)) (k k2 : α) (h : k2 ≠ k) :
    alookup (aerase l k) k2 = alookup l k2 := by
  induction l with
  | nil => rfl
  | cons p rest ih =>
      obtain ⟨k1, v1⟩ := p
      by_cases h1 : k1 = k
      · subst h1
        simp [aerase, alookup, Ne.symm h]
      · by_cases h2 : k1 = k2 <;> simp [aerase, alookup, h, h1, h2, ih]

theorem alookup_eq_none_iff {α β : Type} [DecidableEq α]
    (l : List (α × β)) (k : α) :
    alookup l k = none ↔ k ∉ l.map Prod.fst := by
  induction l with
  | nil => simp [alookup]
  | cons p rest ih =>
      obtain ⟨k1, v1⟩ := p
      by_cases h1 : k1 = k
      · simp [alookup, h1]
      · simp [alookup, h1, ih, Ne.symm h1]

theorem alookup_aerase_self {α β : Type} [DecidableEq α]
    (l : List (α × β)) (k : α) (h : keysNodup l) :
    alookup (aerase l k) k = none := by
  induction l with
  | nil => rfl
  | cons p rest ih =>
      obtain ⟨k1, v1⟩ := p
      simp only [keysNodup, List.map_cons, List.nodup_cons] at h
      by_cases h1 : k1 = k
      · subst h1
        simp only [aerase, if_pos rfl]
        exact (alookup_eq_none_iff rest k1).mpr h.1
      · simp [aerase, h1, alookup, ih h.2]

theorem alookup_mem {α β : Type} [DecidableEq α]
    {l : List (α × β)} {k : α} {v : β} (h : alookup l k = some v) :
    (k, v) ∈ l := by
  induction l with
  | nil => simp [alookup] at h
  | cons p rest ih =>
      obtain ⟨k1, v1⟩ := p
      by_cases h1 : k1 = k
      · subst h1
        simp only [alookup, if_pos, Option.some.injEq] at h
        subst h
        simp
      · simp only [alookup, h1, if_false] at h
        simp [ih h]

theorem mem_aerase {α β : Type} [DecidableEq α]
    {l : List (α × β)} {k : α} {p : α × β} (h : p ∈ aerase l k) : p ∈ l := by
  induction l with
  | nil => simp [aerase] at h
  | cons q rest ih =>
      obtain ⟨k1, v1⟩ := q
      by_cases h1 : k1 = k
      · subst h1
        simp [aerase] at h
        simp [h]
      · simp only [aerase, h1, if_false, List.mem_cons] at h
        rcases h with rfl | h
        · simp
        · simp [ih h]

theorem keys_aerase_sublist {α β : Type} [DecidableEq α]
    (l : List (α × β)) (k : α) :
    ((aerase l k).map Prod.fst).Sublist (l.map Prod.fst) := by
  induction l with
  | nil => simp [aerase]
  | cons p rest ih =>
      obtain ⟨k1, v1⟩ := p
      by_cases h1 : k1 = k
      · simp only [aerase, h1, if_pos rfl, List.map_cons]
        exact (List.sublist_cons_self _ _)
      · simp only [aerase, h1, if_false, List.map_cons]
        exact ih.cons₂ k1

theorem keysNodup_aerase {α β : Type} [DecidableEq α]
    (l : List (α × β)) (k : α) (h : keysNodup l) : keysNodup (aerase l k) :=
  (keys_aerase_sublist l k).nodup h

theorem keys_aset_of_lookup_some {α β : Type} [DecidableEq α]
    (l : List (α × β)) (k : α) (v v0 : β) (h : alookup l k = some v0) :
    (aset l k v).map Prod.fst = l.map Prod.fst := by
  induction l with
  | nil => simp [alookup] at h
  | cons p rest ih =>
      obtain ⟨k1, v1⟩ := p
      by_cases h1 : k1 = k
      · subst h1
        simp [aset]
      · simp only [alookup, h1, if_false] at h
        simp [aset, h1, ih h]

theorem keys_aset_of_lookup_none {α β : Type} [DecidableEq α]
    (l : List (α × β)) (k : α) (v : β) (h : alookup l k = none) :
    (aset l k v).map Prod.fst = l.map Prod.fst ++ [k] := by
  induction l with
  | nil => simp [aset]
  | cons p rest ih =>
      obtain ⟨k1, v1⟩ := p
      by_cases h1 : k1 = k
      · simp [alookup, h1] at h
      · simp only [alookup, h1, if_false] at h
        simp [aset, h1, ih h]

theorem keysNodup_aset {α β : Type} [DecidableEq α]
    (l : List (α × β)) (k : α) (v : β) (h : keysNodup l) :
    keysNodup (aset l k v) := by
  cases hl : alookup l k with
  | some v0 => unfold keysNodup; rw [keys_aset_of_lookup_some l k v v0 hl]; exact h
  | none =>
      unfold keysNodup
      rw [keys_aset_of_lookup_none l k v hl]
      have hk : k ∉ l.map Prod.fst := (alookup_eq_none_iff l k).mp hl
      rw [List.nodup_append]
      refine ⟨h, List.nodup_singleton k, fun a ha hb => ?_⟩
      simp only [List.mem_singleton] at hb
      subst hb
      exact hk ha

theorem mem_aset_nodup {α β : Type} [DecidableEq α]
    {l : List (α × β)} {k : α} {v : β} {p : α × β} (hnd : keysNodup l)
    (h : p ∈ aset l k v) : (p = (k, v)) ∨ (p ∈ l ∧ p.1 ≠ k) := by
  induction l with
  | nil =>
      simp only [aset, List.mem_singleton] at h
      exact Or.inl h
  | cons q rest ih =>
      obtain ⟨k1, v1⟩ := q
      simp only [keysNodup, List.map_cons, List.nodup_cons] at hnd
      by_cases h1 : k1 = k
      · subst h1
        simp [aset] at h
        cases h with
        | inl h => exact Or.inl (by simp [h])
        | inr h =>
            refine Or.inr ⟨List.mem_cons_of_mem _ h, fun hpk => ?_⟩
            exact hnd.1 (hpk ▸ List.mem_map_of_mem Prod.fst h)
      · simp only [aset, h1, if_false, List.mem_cons] at h
        cases h with
        | inl h => exact Or.inr ⟨by simp [h], by simp [h, h1]⟩
        | inr h =>
            cases ih hnd.2 h with
            | inl h2 => exact Or.inl h2
            | inr h2 => exact Or.inr ⟨List.mem_cons_of_mem _ h2.1, h2.2⟩

theorem alookup_of_mem_nodup {α β : Type} [DecidableEq α]
    {l : List (α × β)} {k : α} {v : β} (hnd : keysNodup l)
    (h : (k, v) ∈ l) : alookup l k = some v := by
  induction l with
  | nil => simp at h
  | cons q rest ih =>
      obtain ⟨k1, v1⟩ := q
      simp only [keysNodup, List.map_cons, List.nodup_cons] at hnd
      rcases List.mem_cons.mp h with heq | h2
      · rw [Prod.mk.injEq] at heq
        obtain ⟨rfl, rfl⟩ := heq
        simp [alookup]
      · by_cases h1 : k1 = k
        · subst h1
          exact absurd (List.mem_map_of_mem Prod.fst h2) hnd.1
        · simp [alookup, h1, ih hnd.2 h2]

end Seance

namespace Seance

/-- Well-formedness of the manager state: dict keys unique, no empty session
entry, join lists duplicate-free, every connection in at most one session
entry (and once in it), and every listed connection covered by the user
registry.  These are the invariants the Python code relies on; claim C8
proves they hold in every reachable state. -/
structure WF (st : ManagerState) : Prop where
  actKeys : keysNodup st.active_connections
  regKeys : keysNodup st.user_registry
  nonEmpty : ∀ p ∈ st.active_connections, p.2 ≠ []
  connsNodup : ∀ p ∈ st.active_connections, p.2.Nodup
  oneSession : ∀ p ∈ st.active_connections, ∀ q ∈ st.active_connections,
    ∀ c : Conn, c ∈ p.2 → c ∈ q.2 → p = q
  covered : ∀ p ∈ st.active_connections, ∀ c ∈ p.2,
    (alookup st.user_registry c).isSome

/-- In a list with distinct keys, entries are determined by their key. -/
theorem eq_of_keys_eq {α β : Type} [DecidableEq α] {l : List (α × β)}
    (h : keysNodup l) {p q : α × β} (hp : p ∈ l) (hq : q ∈ l)
    (hk : p.1 = q.1) : p = q := by
  induction l with
  | nil => simp at hp
  | cons r rest ih =>
      simp only [keysNodup, List.map_cons, List.nodup_cons] at h
      rcases List.mem_cons.mp hp with rfl | hp2
      · rcases List.mem_cons.mp hq with rfl | hq2
        · rfl
        · exact absurd (hk ▸ List.mem_map_of_mem Prod.fst hq2) h.1
      · rcases List.mem_cons.mp hq with rfl | hq2
        · exact absurd (hk ▸ List.mem_map_of_mem Prod.fst hp2) h.1
        · exact ih h.2 hp2 hq2

/-- The guarded removal in disconnect equals plain List.erase. -/
theorem if_mem_erase (conns : List Conn) (ws : Conn) :
    (if ws ∈ conns then conns.erase ws else conns) = conns.erase ws := by
  by_cases h : ws ∈ conns
  · rw [if_pos h]
  · rw [if_neg h, List.erase_of_not_mem h]

theorem disconnect_fst (st : ManagerState) (ws : Conn) (sid : List Char) :
    (disconnect st ws sid).1 = alookup st.user_registry ws := rfl

theorem disconnect_snd_registry (st : ManagerState) (ws : Conn)
    (sid : List Char) :
    (disconnect st ws sid).2.user_registry = aerase st.user_registry ws := rfl

theorem disconnect_active_of_none (st : ManagerState) (ws : Conn)
    (sid : List Char) (hl : alookup st.active_connections sid = none) :
    (disconnect st ws sid).2.active_connections = st.active_connections := by
  unfold disconnect
  rw [hl]

theorem disconnect_active_of_some_nil (st : ManagerState) (ws : Conn)
    (sid : List Char) (conns : List Conn)
    (hl : alookup st.active_connections sid = some conns)
    (he : conns.erase ws = []) :
    (disconnect st ws sid).2.active_connections =
      aerase st.active_connections sid := by
  unfold disconnect
  rw [hl]
  simp only [if_mem_erase]
  rw [he]
  simp

theorem disconnect_active_of_some (st : ManagerState) (ws : Conn)
    (sid : List Char) (conns : List Conn)
    (hl : alookup st.active_connections sid = some conns)
    (he : conns.erase ws ≠ []) :
    (disconnect st ws sid).2.active_connections =
      aset st.active_connections sid (conns.erase ws) := by
  unfold disconnect
  rw [hl]
  simp only [if_mem_erase]
  rw [if_neg he]

/-- After a disconnect the connection is gone from the session entry. -/
theorem disconnect_not_mem_sid (st : ManagerState) (ws : Conn)
    (sid : List Char) (hact : keysNodup st.active_connections)
    (hcn : ∀ p ∈ st.active_connections, p.2.Nodup) :
    ∀ conns2,
      alookup (disconnect st ws sid).2.active_connections sid = some conns2 →
      ws ∉ conns2 := by
  intro conns2 h2
  cases hl : alookup st.active_connections sid with
  | none =>
      rw [disconnect_active_of_none st ws sid hl, hl] at h2
      cases h2
  | some conns =>
      by_cases he : conns.erase ws = []
      · rw [disconnect_active_of_some_nil st ws sid conns hl he,
          alookup_aerase_self _ _ hact] at h2
        cases h2
      · rw [disconnect_active_of_some st ws sid conns hl he,
          alookup_aset_self] at h2
        have hconns : conns.Nodup := hcn (sid, conns) (alookup_mem hl)
        have := hconns.not_mem_erase (a := ws)
        injection h2 with h2
        exact h2 ▸ this

/-- After a disconnect the connection is gone from the registry. -/
theorem disconnect_reg_none (st : ManagerState) (ws : Conn) (sid : List Char)
    (hreg : keysNodup st.user_registry) :
    alookup (disconnect st ws sid).2.user_registry ws = none := by
  rw [disconnect_snd_registry]
  exact alookup_aerase_self _ _ hreg

/-- A disconnect never adds registry entries. -/
theorem disconnect_reg_mono (st : ManagerState) (d : Conn) (sid : List Char)
    {c : Conn} (h : alookup st.user_registry c = none) :
    alookup (disconnect st d sid).2.user_registry c = none := by
  rw [disconnect_snd_registry]
  rw [alookup_eq_none_iff] at h ⊢
  intro hc
  exact h ((keys_aerase_sublist _ _).subset hc)

/-- A disconnect never adds connections to the session entry. -/
theorem disconnect_sid_mono (st : ManagerState) (d : Conn) (sid : List Char)
    {c : Conn} (hact : keysNodup st.active_connections)
    (h : ∀ conns2, alookup st.active_connections sid = some conns2 →
      c ∉ conns2) :
    ∀ conns2,
      alookup (disconnect st d sid).2.active_connections sid = some conns2 →
      c ∉ conns2 := by
  intro conns2 h2
  cases hl : alookup st.active_connections sid with
  | none =>
      rw [disconnect_active_of_none st d sid hl, hl] at h2
      cases h2
  | some conns =>
      by_cases he : conns.erase d = []
      · rw [disconnect_active_of_some_nil st d sid conns hl he,
          alookup_aerase_self _ _ hact] at h2
        cases h2
      · rw [disconnect_active_of_some st d sid conns hl he,
          alookup_aset_self] at h2
        injection h2 with h2
        subst h2
        intro hc
        exact h conns hl (List.erase_subset _ _ hc)

/-- Disconnect preserves key uniqueness of the session map. -/
theorem disconnect_keysNodup_active (st : ManagerState) (ws : Conn)
    (sid : List Char) (h : keysNodup st.active_connections) :
    keysNodup (disconnect st ws sid).2.active_connections := by
  cases hl : alookup st.active_connections sid with
  | none => rw [disconnect_active_of_none st ws sid hl]; exact h
  | some conns =>
      by_cases he : conns.erase ws = []
      · rw [disconnect_active_of_some_nil st ws sid conns hl he]
        exact keysNodup_aerase _ _ h
      · rw [disconnect_active_of_some st ws sid conns hl he]
        exact keysNodup_aset _ _ _ h

/-- Every session entry after a disconnect shrinks an entry that was
already present (same key, subset of connections). -/
theorem disconnect_shrink (st : ManagerState) (ws : Conn) (sid : List Char)
    (hact : keysNodup st.active_connections) :
    ∀ p ∈ (disconnect st ws sid).2.active_connections,
      ∃ q ∈ st.active_connections, p.1 = q.1 ∧ ∀ c ∈ p.2, c ∈ q.2 := by
  intro p hp
  cases hl : alookup st.active_connections sid with
  | none =>
      rw [disconnect_active_of_none st ws sid hl] at hp
      exact ⟨p, hp, rfl, fun c hc => hc⟩
  | some conns =>
      by_cases he : conns.erase ws = []
      · rw [disconnect_active_of_some_nil st ws sid conns hl he] at hp
        exact ⟨p, mem_aerase hp, rfl, fun c hc => hc⟩
      · rw [disconnect_active_of_some st ws sid conns hl he] at hp
        rcases mem_aset_nodup hact hp with rfl | ⟨hm, _⟩
        · exact ⟨(sid, conns), alookup_mem hl, rfl,
            fun c hc => List.erase_subset _ _ hc⟩
        · exact ⟨p, hm, rfl, fun c hc => hc⟩

end Seance

namespace Seance

/-- With unique keys, erasing a key leaves only entries with other keys. -/
theorem mem_aerase_ne {α β : Type} [DecidableEq α]
    {l : List (α × β)} {k : α} {p : α × β} (hnd : keysNodup l)
    (h : p ∈ aerase l k) : p ∈ l ∧ p.1 ≠ k := by
  induction l with
  | nil => simp [aerase] at h
  | cons q rest ih =>
      obtain ⟨k1, v1⟩ := q
      simp only [keysNodup, List.map_cons, List.nodup_cons] at hnd
      by_cases h1 : k1 = k
      · subst h1
        simp [aerase] at h
        refine ⟨List.mem_cons_of_mem _ h, fun hpk => ?_⟩
        exact hnd.1 (hpk ▸ List.mem_map_of_mem Prod.fst h)
      · simp only [aerase, h1, if_false, List.mem_cons] at h
        rcases h with rfl | h
        · exact ⟨List.mem_cons_self _ _, h1⟩
        · obtain ⟨hm, hne⟩ := ih hnd.2 h
          exact ⟨List.mem_cons_of_mem _ hm, hne⟩

/-- Setting a key keeps every other lookup defined, and defines that key. -/
theorem alookup_aset_isSome {α β : Type} [DecidableEq α]
    (l : List (α × β)) (k : α) (v : β) (c : α)
    (h : (alookup l c).isSome) : (alookup (aset l k v) c).isSome := by
  by_cases hc : c = k
  · subst hc
    rw [alookup_aset_self]
    rfl
  · rwa [alookup_aset_other _ _ _ _ hc]

/-- Unregistering preserves well-formedness, provided the connection is only
ever listed under the session it is being removed from — which is how the
code calls disconnect: the endpoint passes the session its socket joined,
and broadcast prunes a connection from the session it was found in. -/
theorem disconnect_WF (st : ManagerState) (ws : Conn) (sid : List Char)
    (h : WF st)
    (hcall : ∀ p ∈ st.active_connections, ws ∈ p.2 → p.1 = sid) :
    WF (disconnect st ws sid).2 := by
  have hreg' : keysNodup (disconnect st ws sid).2.user_registry := by
    rw [disconnect_snd_registry]
    exact keysNodup_aerase _ _ h.regKeys
  have hact' := disconnect_keysNodup_active st ws sid h.actKeys
  cases hl : alookup st.active_connections sid with
  | none =>
      have ha := disconnect_active_of_none st ws sid hl
      refine ⟨hact', hreg', ?_, ?_, ?_, ?_⟩
      · rw [ha]; exact h.nonEmpty
      · rw [ha]; exact h.connsNodup
      · rw [ha]; exact h.oneSession
      · rw [ha, disconnect_snd_registry]
        intro p hp c hc
        have hcw : c ≠ ws := by
          rintro rfl
          have hsid := hcall p hp hc
          have : sid ∈ st.active_connections.map Prod.fst :=
            hsid ▸ List.mem_map_of_mem Prod.fst hp
          exact (alookup_eq_none_iff _ _).mp hl this
        rw [alookup_aerase_other _ _ _ hcw]
        exact h.covered p hp c hc
  | some conns =>
      by_cases he : conns.erase ws = []
      · have ha := disconnect_active_of_some_nil st ws sid conns hl he
        refine ⟨hact', hreg', ?_, ?_, ?_, ?_⟩
        · rw [ha]; intro p hp; exact h.nonEmpty p (mem_aerase hp)
        · rw [ha]; intro p hp; exact h.connsNodup p (mem_aerase hp)
        · rw [ha]
          intro p hp q hq c hcp hcq
          exact h.oneSession p (mem_aerase hp) q (mem_aerase hq) c hcp hcq
        · rw [ha, disconnect_snd_registry]
          intro p hp c hc
          obtain ⟨hpm, hpk⟩ := mem_aerase_ne h.actKeys hp
          have hcw : c ≠ ws := by
            rintro rfl
            exact hpk (hcall p hpm hc)
          rw [alookup_aerase_other _ _ _ hcw]
          exact h.covered p hpm c hc
      · have ha := disconnect_active_of_some st ws sid conns hl he
        have hconns : conns.Nodup := h.connsNodup _ (alookup_mem hl)
        refine ⟨hact', hreg', ?_, ?_, ?_, ?_⟩
        · rw [ha]
          intro p hp
          rcases mem_aset_nodup h.actKeys hp with rfl | ⟨hm, _⟩
          · exact he
          · exact h.nonEmpty p hm
        · rw [ha]
          intro p hp
          rcases mem_aset_nodup h.actKeys hp with rfl | ⟨hm, _⟩
          · exact hconns.erase ws
          · exact h.connsNodup p hm
        · rw [ha]
          intro p hp q hq c hcp hcq
          rcases mem_aset_nodup h.actKeys hp with rfl | ⟨hpm, hpk⟩ <;>
            rcases mem_aset_nodup h.actKeys hq with rfl | ⟨hqm, hqk⟩
          · rfl
          · exfalso
            have := h.oneSession (sid, conns) (alookup_mem hl) q hqm c
              (List.erase_subset _ _ hcp) hcq
            exact hqk (by rw [← this])
          · exfalso
            have := h.oneSession (sid, conns) (alookup_mem hl) p hpm c
              (List.erase_subset _ _ hcq) hcp
            exact hpk (by rw [← this])
          · exact h.oneSession p hpm q hqm c hcp hcq
        · rw [ha, disconnect_snd_registry]
          intro p hp c hc
          rcases mem_aset_nodup h.actKeys hp with rfl | ⟨hpm, hpk⟩
          · obtain ⟨hcw, hcm⟩ := (hconns.mem_erase_iff).mp hc
            rw [alookup_aerase_other _ _ _ hcw]
            exact h.covered _ (alookup_mem hl) c hcm
          · have hcw : c ≠ ws := by
              rintro rfl
              exact hpk (hcall p hpm hc)
            rw [alookup_aerase_other _ _ _ hcw]
            exact h.covered p hpm c hc

/-- Registration of a fresh connection preserves well-formedness.  The
endpoint always registers a freshly accepted socket object, so the
connection has no prior registry entry. -/
theorem register_WF (st : ManagerState) (sid : List Char) (ws : Conn)
    (ui : UserInfo) (h : WF st)
    (hfresh : alookup st.user_registry ws = none) :
    WF (register st sid ws ui) := by
  have hws_not : ∀ conns0, alookup st.active_connections sid = some conns0 →
      ws ∉ conns0 := by
    intro conns0 hl hmem
    have := h.covered _ (alookup_mem hl) ws hmem
    rw [hfresh] at this
    exact Bool.noConfusion this
  have hws_any : ∀ p ∈ st.active_connections, ws ∉ p.2 := by
    intro p hp hmem
    have := h.covered p hp ws hmem
    rw [hfresh] at this
    exact Bool.noConfusion this
  unfold register
  refine ⟨keysNodup_aset _ _ _ h.actKeys, keysNodup_aset _ _ _ h.regKeys,
    ?_, ?_, ?_, ?_⟩
  · intro p hp
    rcases mem_aset_nodup h.actKeys hp with rfl | ⟨hm, _⟩
    · simp
    · exact h.nonEmpty p hm
  · intro p hp
    rcases mem_aset_nodup h.actKeys hp with rfl | ⟨hm, _⟩
    · cases hl : alookup st.active_connections sid with
      | none => simp
      | some conns0 =>
          show ((some conns0).getD [] ++ [ws]).Nodup
          simp only [Option.getD_some]
          rw [List.nodup_append]
          exact ⟨h.connsNodup _ (alookup_mem hl), List.nodup_singleton ws,
            fun a ha hb => by
              simp only [List.mem_singleton] at hb
              exact hws_not conns0 hl (hb ▸ ha)⟩
    · exact h.connsNodup p hm
  · intro p hp q hq c hcp hcq
    rcases mem_aset_nodup h.actKeys hp with rfl | ⟨hpm, hpk⟩ <;>
      rcases mem_aset_nodup h.actKeys hq with rfl | ⟨hqm, hqk⟩
    · rfl
    · exfalso
      simp only [List.mem_append, List.mem_singleton] at hcp
      rcases hcp with hcp | rfl
      · cases hl : alookup st.active_connections sid with
        | none => rw [hl] at hcp; simp at hcp
        | some conns0 =>
            rw [hl] at hcp
            simp only [Option.getD_some] at hcp
            have := h.oneSession (sid, conns0) (alookup_mem hl) q hqm c hcp hcq
            exact hqk (by rw [← this])
      · exact hws_any q hqm hcq
    · exfalso
      simp only [List.mem_append, List.mem_singleton] at hcq
      rcases hcq with hcq | rfl
      · cases hl : alookup st.active_connections sid with
        | none => rw [hl] at hcq; simp at hcq
        | some conns0 =>
            rw [hl] at hcq
            simp only [Option.getD_some] at hcq
            have := h.oneSession (sid, conns0) (alookup_mem hl) p hpm c hcq hcp
            exact hpk (by rw [← this])
      · exact hws_any p hpm hcp
    · exact h.oneSession p hpm q hqm c hcp hcq
  · intro p hp c hc
    rcases mem_aset_nodup h.actKeys hp with rfl | ⟨hpm, hpk⟩
    · simp only [List.mem_append, List.mem_singleton] at hc
      rcases hc with hc | rfl
      · cases hl : alookup st.active_connections sid with
        | none => rw [hl] at hc; simp at hc
        | some conns0 =>
            rw [hl] at hc
            simp only [Option.getD_some] at hc
            exact alookup_aset_isSome _ _ _ _
              (h.covered _ (alookup_mem hl) c hc)
      · rw [alookup_aset_self]
        rfl
    · exact alookup_aset_isSome _ _ _ _ (h.covered p hpm c hc)

end Seance

namespace Seance

/-- Pruning a list of dead connections (as broadcast does) preserves
well-formedness, as long as each pruned connection is only listed under the
session being pruned. -/
theorem foldl_disconnect_WF (sid : List Char) :
    ∀ (ds : List Conn) (s : ManagerState), WF s →
      (∀ c ∈ ds, ∀ p ∈ s.active_connections, c ∈ p.2 → p.1 = sid) →
      WF (ds.foldl (fun t c => (disconnect t c sid).2) s) := by
  intro ds
  induction ds with
  | nil => intro s h _; exact h
  | cons d cs ih =>
      intro s h hpre
      simp only [List.foldl_cons]
      refine ih _ (disconnect_WF s d sid h (hpre d (by simp))) ?_
      intro c hc p hp hcp
      obtain ⟨q, hq, hkey, hsub⟩ := disconnect_shrink s d sid h.actKeys p hp
      rw [hkey]
      exact hpre c (by simp [hc]) q hq (hsub c hcp)

/-- Once a connection is out of the registry and out of the session entry,
further pruning keeps it out. -/
theorem foldl_disconnect_keeps (sid : List Char) (c : Conn) :
    ∀ (ds : List Conn) (s : ManagerState),
      keysNodup s.active_connections →
      alookup s.user_registry c = none →
      (∀ conns2, alookup s.active_connections sid = some conns2 →
        c ∉ conns2) →
      alookup
        (ds.foldl (fun t d => (disconnect t d sid).2) s).user_registry c
          = none ∧
      ∀ conns2,
        alookup (ds.foldl (fun t d => (disconnect t d sid).2)
          s).active_connections sid = some conns2 → c ∉ conns2 := by
  intro ds
  induction ds with
  | nil => intro s _ h1 h2; exact ⟨h1, h2⟩
  | cons d cs ih =>
      intro s hact h1 h2
      simp only [List.foldl_cons]
      exact ih _ (disconnect_keysNodup_active s d sid hact)
        (disconnect_reg_mono s d sid h1) (disconnect_sid_mono s d sid hact h2)

/-- Broadcasting preserves well-formedness: its only state change is the
pruning of dead connections of the session being broadcast to. -/
theorem broadcast_WF (sendOk : Conn → Bool) (st : ManagerState)
    (sid : List Char) (exclude : Option Conn) (h : WF st) :
    WF (broadcast sendOk st sid exclude).2 := by
  cases hs : alookup st.active_connections sid with
  | none =>
      unfold broadcast
      rw [hs]
      exact h
  | some conns =>
      unfold broadcast
      rw [hs]
      refine foldl_disconnect_WF sid _ st h ?_
      intro c hc p hp hcp
      have hcconns : c ∈ conns := by
        have h1 := (List.mem_filter.mp hc).1
        exact (List.mem_filter.mp h1).1
      have heq := h.oneSession p hp (sid, conns) (alookup_mem hs) c hcp hcconns
      rw [heq]

/-- The states the process can drive the registry through: a fresh start,
registrations of freshly accepted sockets (manager.connect and the inline
registration in websocket_endpoint perform the same state change),
disconnects of a socket under the session it was registered in (the only
way the code calls disconnect), and broadcasts with their dead-connection
pruning. -/
inductive Reachable : ManagerState → Prop where
  | init : Reachable ⟨[], []⟩
  | regStep {st : ManagerState} (sid : List Char) (ws : Conn) (ui : UserInfo)
      (hfresh : alookup st.user_registry ws = none) (h : Reachable st) :
      Reachable (register st sid ws ui)
  | unregStep {st : ManagerState} (ws : Conn) (sid : List Char)
      (hcall : ∀ p ∈ st.active_connections, ws ∈ p.2 → p.1 = sid)
      (h : Reachable st) :
      Reachable (disconnect st ws sid).2
  | bcastStep {st : ManagerState} (sendOk : Conn → Bool) (sid : List Char)
      (exclude : Option Conn) (h : Reachable st) :
      Reachable (broadcast sendOk st sid exclude).2

/-- Every reachable registry state is well-formed. -/
theorem WF_of_reachable {st : ManagerState} (h : Reachable st) : WF st := by
  induction h with
  | init =>
      constructor <;> simp [keysNodup]
  | regStep sid ws ui hfresh _ ih => exact register_WF _ sid ws ui ih hfresh
  | unregStep ws sid hcall _ ih => exact disconnect_WF _ ws sid ih hcall
  | bcastStep sendOk sid exclude _ ih => exact broadcast_WF sendOk _ sid exclude ih

end Seance

namespace Seance

/-- Connection lists of the session map keep no duplicates after a
disconnect. -/
theorem disconnect_connsNodup (st : ManagerState) (ws : Conn)
    (sid : List Char) (hact : keysNodup st.active_connections)
    (hcn : ∀ p ∈ st.active_connections, p.2.Nodup) :
    ∀ p ∈ (disconnect st ws sid).2.active_connections, p.2.Nodup := by
  intro p hp
  cases hl : alookup st.active_connections sid with
  | none =>
      rw [disconnect_active_of_none st ws sid hl] at hp
      exact hcn p hp
  | some conns =>
      by_cases he : conns.erase ws = []
      · rw [disconnect_active_of_some_nil st ws sid conns hl he] at hp
        exact hcn p (mem_aerase hp)
      · rw [disconnect_active_of_some st ws sid conns hl he] at hp
        rcases mem_aset_nodup hact hp with rfl | ⟨hm, _⟩
        · exact (hcn _ (alookup_mem hl)).erase ws
        · exact hcn p hm

/-- Every connection in the pruned list is fully removed by the fold. -/
theorem foldl_disconnect_removes (sid : List Char) :
    ∀ (ds : List Conn) (s : ManagerState),
      keysNodup s.active_connections →
      keysNodup s.user_registry →
      (∀ p ∈ s.active_connections, p.2.Nodup) →
      ∀ c ∈ ds,
        alookup ((ds.foldl (fun t d => (disconnect t d sid).2)
          s).user_registry) c = none ∧
        ∀ conns2,
          alookup ((ds.foldl (fun t d => (disconnect t d sid).2)
            s).active_connections) sid = some conns2 → c ∉ conns2 := by
  intro ds
  induction ds with
  | nil => intro s _ _ _ c hc; simp at hc
  | cons d cs ih =>
      intro s hact hreg hcn c hc
      simp only [List.foldl_cons]
      have hact' := disconnect_keysNodup_active s d sid hact
      have hreg' : keysNodup (disconnect s d sid).2.user_registry := by
        rw [disconnect_snd_registry]
        exact keysNodup_aerase _ _ hreg
      have hcn' := disconnect_connsNodup s d sid hact hcn
      rcases List.mem_cons.mp hc with rfl | hc2
      · exact foldl_disconnect_keeps sid c cs _ hact'
          (disconnect_reg_none s c sid hreg)
          (disconnect_not_mem_sid s c sid hact hcn)
      · exact ih _ hact' hreg' hcn' c hc2

/-- Claim C8: after every sequence of registry operations as the pipeline
performs them — registration of freshly accepted sockets (ConnectionManager
.connect and the endpoint's inline registration make the same state
change), disconnects of a socket under its own session, and broadcasts with
their dead-connection pruning — every session entry in the session map is a
non-empty list, and every connection listed in any session entry has an
entry in the user-info registry. -/
theorem c8_registry_invariant (st : ManagerState) (h : Reachable st) :
    (∀ p ∈ st.active_connections, p.2 ≠ []) ∧
    (∀ p ∈ st.active_connections, ∀ c ∈ p.2,
      (alookup st.user_registry c).isSome) :=
  ⟨(WF_of_reachable h).nonEmpty, (WF_of_reachable h).covered⟩

theorem c8_registry_invariant_witness :
    (alookup (register ⟨[], []⟩ ("s1").toList 1
      ⟨("u1").toList, ("Ana").toList, 0⟩).user_registry 1).isSome = true :=
  (c8_registry_invariant _
    (@Reachable.regStep ⟨[], []⟩ ("s1").toList 1
      ⟨("u1").toList, ("Ana").toList, 0⟩ rfl Reachable.init)).2
    (("s1").toList, [1]) (by decide) 1 (by decide)

/-- Claim C6: broadcast attempts delivery to every registered connection of
the session, in join order — all N of them without exclusion, the N-1
others when one registered connection is excluded — independently of which
sends fail (the attempted list does not depend on send outcomes), and every
connection whose send fails is pruned as a side effect: removed from the
session entry and from the user registry, with the send error swallowed
(broadcast is a total function). -/
theorem c6_broadcast_fanout (sendOk : Conn → Bool) (st : ManagerState)
    (sid : List Char) (conns : List Conn) (h : WF st)
    (hs : alookup st.active_connections sid = some conns) :
    ((broadcast sendOk st sid none).1 = conns) ∧
    (∀ e ∈ conns,
      (broadcast sendOk st sid (some e)).1 = conns.erase e ∧
      (broadcast sendOk st sid (some e)).1.length = conns.length - 1) ∧
    (∀ exclude : Option Conn,
      (broadcast sendOk st sid exclude).1 =
        (broadcast (fun _ => true) st sid exclude).1) ∧
    (∀ exclude : Option Conn, ∀ c ∈ (broadcast sendOk st sid exclude).1,
      sendOk c = false →
        alookup ((broadcast sendOk st sid exclude).2).user_registry c
          = none ∧
        ∀ conns2,
          alookup ((broadcast sendOk st sid exclude).2).active_connections
            sid = some conns2 → c ∉ conns2) := by
  have hnd : conns.Nodup := h.connsNodup _ (alookup_mem hs)
  refine ⟨?_, ?_, ?_, ?_⟩
  · unfold broadcast
    rw [hs]
    simp
  · intro e he
    have hfe : conns.filter (fun c => decide (some c ≠ some e)) =
        conns.erase e := by
      rw [hnd.erase_eq_filter e]
      refine List.filter_congr ?_
      intro x _
      by_cases hx : x = e <;> simp [hx]
    unfold broadcast
    rw [hs]
    refine ⟨by simpa using hfe, ?_⟩
    show (conns.filter (fun c => decide (some c ≠ some e))).length =
      conns.length - 1
    rw [hfe]
    exact List.length_erase_of_mem he
  · intro exclude
    unfold broadcast
    rw [hs]
  · intro exclude c hc hdead
    have hcatt : c ∈ conns.filter (fun x => some x ≠ exclude) := by
      unfold broadcast at hc
      rw [hs] at hc
      exact hc
    have hcd : c ∈ (conns.filter (fun x => some x ≠ exclude)).filter
        (fun x => !sendOk x) :=
      List.mem_filter.mpr ⟨hcatt, by simp [hdead]⟩
    have hres := foldl_disconnect_removes sid
      ((conns.filter (fun x => some x ≠ exclude)).filter (fun x => !sendOk x))
      st h.actKeys h.regKeys h.connsNodup c hcd
    unfold broadcast
    rw [hs]
    exact hres

end Seance

namespace Seance

/-- Two-user demo state: connections 1 and 2 joined session s1. -/
def demoState : ManagerState :=
  register
    (register ⟨[], []⟩ ("s1").toList 1 ⟨("u1").toList, ("Ana").toList, 0⟩)
    ("s1").toList 2 ⟨("u2").toList, ("Bob").toList, 1⟩

theorem demoState_reachable : Reachable demoState :=
  Reachable.regStep ("s1").toList 2 ⟨("u2").toList, ("Bob").toList, 1⟩
    (by decide)
    (@Reachable.regStep ⟨[], []⟩ ("s1").toList 1
      ⟨("u1").toList, ("Ana").toList, 0⟩ rfl Reachable.init)

theorem c6_broadcast_fanout_witness :
    (broadcast (fun _ => true) demoState ("s1").toList none).1 = [1, 2] ∧
    (broadcast (fun _ => true) demoState ("s1").toList (some 1)).1.length
      = 2 - 1 :=
  ⟨(c6_broadcast_fanout (fun _ => true) demoState ("s1").toList [1, 2]
      (WF_of_reachable demoState_reachable) (by decide)).1,
    ((c6_broadcast_fanout (fun _ => true) demoState ("s1").toList [1, 2]
      (WF_of_reachable demoState_reachable) (by decide)).2.1 1
        (by decide)).2⟩

theorem ManagerState_ext {a b : ManagerState}
    (h1 : a.active_connections = b.active_connections)
    (h2 : a.user_registry = b.user_registry) : a = b := by
  cases a
  cases b
  cases h1
  cases h2
  rfl

/-- Claim C7: disconnecting a registered connection removes it from the
session's connection list and from the user registry, deletes the session
entry once it becomes empty, and returns the removed user info; a second
disconnect for the same connection and session returns none and leaves the
state unchanged; and afterwards the session's user listing never contains
that connection's user info again (assuming, as the endpoint guarantees, no
other connection carries the same user info). -/
theorem c7_unregister (st : ManagerState) (ws : Conn) (sid : List Char)
    (conns : List Conn) (ui : UserInfo) (h : WF st)
    (hs : alookup st.active_connections sid = some conns)
    (hmem : ws ∈ conns)
    (hui : alookup st.user_registry ws = some ui)
    (huniq : ∀ c2, alookup st.user_registry c2 = some ui → c2 = ws) :
    ((disconnect st ws sid).1 = some ui) ∧
    (alookup (disconnect st ws sid).2.user_registry ws = none) ∧
    (∀ conns2,
      alookup (disconnect st ws sid).2.active_connections sid = some conns2 →
        ws ∉ conns2) ∧
    (conns.erase ws = [] →
      alookup (disconnect st ws sid).2.active_connections sid = none) ∧
    (disconnect (disconnect st ws sid).2 ws sid =
      (none, (disconnect st ws sid).2)) ∧
    (ui ∉ get_session_users (disconnect st ws sid).2 sid) := by
  have hregnone : alookup (disconnect st ws sid).2.user_registry ws = none :=
    disconnect_reg_none st ws sid h.regKeys
  have hdel : conns.erase ws = [] →
      alookup (disconnect st ws sid).2.active_connections sid = none := by
    intro he
    rw [disconnect_active_of_some_nil st ws sid conns hs he]
    exact alookup_aerase_self _ _ h.actKeys
  have hsa : (disconnect (disconnect st ws sid).2 ws sid).2.active_connections
      = (disconnect st ws sid).2.active_connections := by
    by_cases he : conns.erase ws = []
    · exact disconnect_active_of_none _ ws sid (hdel he)
    · have hl2 : alookup (disconnect st ws sid).2.active_connections sid =
          some (conns.erase ws) := by
        rw [disconnect_active_of_some st ws sid conns hs he, alookup_aset_self]
      have hnotin : ws ∉ conns.erase ws :=
        (h.connsNodup _ (alookup_mem hs)).not_mem_erase
      have heq : (conns.erase ws).erase ws = conns.erase ws :=
        List.erase_of_not_mem hnotin
      rw [disconnect_active_of_some _ ws sid (conns.erase ws) hl2
        (by rw [heq]; exact he), heq]
      exact aset_self _ _ _ hl2
  have hsr : (disconnect (disconnect st ws sid).2 ws sid).2.user_registry
      = (disconnect st ws sid).2.user_registry := by
    rw [disconnect_snd_registry]
    exact aerase_of_alookup_none _ _ hregnone
  refine ⟨by rw [disconnect_fst, hui], hregnone,
    disconnect_not_mem_sid st ws sid h.actKeys h.connsNodup, hdel,
    ?_, ?_⟩
  · have hfst : (disconnect (disconnect st ws sid).2 ws sid).1 = none := by
      rw [disconnect_fst]
      exact hregnone
    have hpair := Prod.mk.injEq (disconnect (disconnect st ws sid).2 ws sid).1
      (disconnect (disconnect st ws sid).2 ws sid).2 (none : Option UserInfo)
      (disconnect st ws sid).2
    rw [show (disconnect (disconnect st ws sid).2 ws sid) =
      ((disconnect (disconnect st ws sid).2 ws sid).1,
        (disconnect (disconnect st ws sid).2 ws sid).2) from rfl]
    rw [hfst, ManagerState_ext hsa hsr]
  · intro habs
    unfold get_session_users at habs
    cases hl2 : alookup (disconnect st ws sid).2.active_connections sid with
    | none => rw [hl2] at habs; simp at habs
    | some conns2 =>
        rw [hl2] at habs
        obtain ⟨c2, _, hc2⟩ := List.mem_filterMap.mp habs
        have hc2ne : c2 ≠ ws := by
          rintro rfl
          rw [hregnone] at hc2
          cases hc2
        rw [disconnect_snd_registry,
          alookup_aerase_other _ _ _ hc2ne] at hc2
        exact hc2ne (huniq c2 hc2)

theorem c7_unregister_witness :
    (disconnect demoState 1 ("s1").toList).1 =
      some ⟨("u1").toList, ("Ana").toList, 0⟩ :=
  (c7_unregister demoState 1 ("s1").toList [1, 2]
    ⟨("u1").toList, ("Ana").toList, 0⟩
    (WF_of_reachable demoState_reachable) (by decide) (by decide) (by decide)
    (by
      intro c2 hc
      by_cases h1 : c2 = 1
      · exact h1
      · exfalso
        by_cases h2 : c2 = 2
        · subst h2
          revert hc
          decide
        · rw [(alookup_eq_none_iff _ _).mpr
            (by simp [demoState, register, aset, h1, h2])] at hc
          cases hc)).1

end Seance

namespace Seance

/-- Error codes of the websocket API (schemas/websocket.py). -/
inductive ErrorCode where
  | EMPTY_MESSAGE
  | MESSAGE_TOO_LONG
  | SPIRIT_ERROR
  | INTERNAL_ERROR
  deriving Repr, DecidableEq

/-- Events the session message pipeline emits. -/
inductive WsEvent where
  | message_received (user_name : List Char) (message : List Char)
  | spirit_thinking
  | spirit_response (resp : SpiritResponse)
  | user_joined (ui : UserInfo)
  | user_left (ui : UserInfo)
  | error (code : ErrorCode)
  deriving Repr, DecidableEq

/-- One outward step of the pipeline: a targeted send (manager.send_to) or
a session broadcast (manager.broadcast, with its optional exclusion). -/
inductive WsAction where
  | sendTo (target : Conn) (event : WsEvent)
  | broadcastEvt (exclude : Option Conn) (event : WsEvent)
  deriving Repr, DecidableEq

/-- handle_user_message (api/websocket.py): trim the text; on empty text
send a single EMPTY_MESSAGE error to the sender only; on more than 500
characters send a single MESSAGE_TOO_LONG error to the sender only;
otherwise broadcast message_received, broadcast spirit_thinking, then
broadcast spirit_response on success of the awaited generate_response call,
or a SPIRIT_ERROR error to the whole session when it raised
SpiritServiceError.  The call's outcome is passed in as spirit. -/
def handle_user_message (websocket : Conn) (message : List Char)
    (user_name : List Char) (spirit : Except Unit SpiritResponse) :
    List WsAction :=
  let message_text := pyStrip message
  if message_text = [] then
    [.sendTo websocket (.error .EMPTY_MESSAGE)]
  else if 500 < message_text.length then
    [.sendTo websocket (.error .MESSAGE_TOO_LONG)]
  else
    [.broadcastEvt none (.message_received user_name message_text),
      .broadcastEvt none .spirit_thinking] ++
    (match spirit with
      | .ok resp => [.broadcastEvt none (.spirit_response resp)]
      | .error _ => [.broadcastEvt none (.error .SPIRIT_ERROR)])

/-- Claim C5: an empty-after-trim message yields exactly one EMPTY_MESSAGE
error sent to the originating connection and nothing broadcast; a trimmed
message over 500 characters yields exactly one MESSAGE_TOO_LONG error to
the originating connection and nothing broadcast; a trimmed message of 1 to
500 characters is broadcast as message_received — carrying the user name
and the trimmed text — to the whole session with no exclusion, and every
action of that request is a whole-session broadcast. -/
theorem c5_message_validation (websocket : Conn)
    (message user_name : List Char) (spirit : Except Unit SpiritResponse) :
    (pyStrip message = [] →
      handle_user_message websocket message user_name spirit =
        [.sendTo websocket (.error .EMPTY_MESSAGE)]) ∧
    (pyStrip message ≠ [] → 500 < (pyStrip message).length →
      handle_user_message websocket message user_name spirit =
        [.sendTo websocket (.error .MESSAGE_TOO_LONG)]) ∧
    (pyStrip message ≠ [] → (pyStrip message).length ≤ 500 →
      (∃ rest,
        handle_user_message websocket message user_name spirit =
          WsAction.broadcastEvt none
            (.message_received user_name (pyStrip message)) :: rest) ∧
      ∀ a ∈ handle_user_message websocket message user_name spirit,
        ∃ ev, a = WsAction.broadcastEvt none ev) := by
  refine ⟨?_, ?_, ?_⟩
  · intro h1
    unfold handle_user_message
    rw [if_pos h1]
  · intro h1 h2
    unfold handle_user_message
    rw [if_neg h1, if_pos h2]
  · intro h1 h2
    unfold handle_user_message
    rw [if_neg h1, if_neg (by omega)]
    constructor
    · exact ⟨_, rfl⟩
    · intro a ha
      simp only [List.cons_append, List.nil_append, List.mem_cons] at ha
      rcases ha with rfl | rfl | ha
      · exact ⟨_, rfl⟩
      · exact ⟨_, rfl⟩
      · cases spirit with
        | ok resp =>
            simp only [List.mem_singleton] at ha
            exact ⟨_, ha⟩
        | error e =>
            simp only [List.mem_singleton] at ha
            exact ⟨_, ha⟩

theorem c5_message_validation_witness :
    pyStrip (("   ").toList) = [] ∧
    handle_user_message 1 (("   ").toList) (("Ana").toList)
      (Except.error ()) = [.sendTo 1 (.error .EMPTY_MESSAGE)] :=
  ⟨by decide,
    (c5_message_validation 1 (("   ").toList) (("Ana").toList)
      (Except.error ())).1 (by decide)⟩

/-- Claim C9: for an accepted message (trimmed length 1 to 500), the
pipeline emits, for that request, exactly the ordered action sequence:
broadcast message_received, then broadcast spirit_thinking, then — with
nothing in between — broadcast spirit_response when the orchestrator call
succeeds, or broadcast a SPIRIT_ERROR error to the whole session when it
fails. -/
theorem c9_event_order (websocket : Conn) (message user_name : List Char)
    (spirit : Except Unit SpiritResponse)
    (h1 : pyStrip message ≠ []) (h2 : (pyStrip message).length ≤ 500) :
    (∀ resp, spirit = Except.ok resp →
      handle_user_message websocket message user_name spirit =
        [.broadcastEvt none
            (.message_received user_name (pyStrip message)),
          .broadcastEvt none .spirit_thinking,
          .broadcastEvt none (.spirit_response resp)]) ∧
    (∀ e, spirit = Except.error e →
      handle_user_message websocket message user_name spirit =
        [.broadcastEvt none
            (.message_received user_name (pyStrip message)),
          .broadcastEvt none .spirit_thinking,
          .broadcastEvt none (.error .SPIRIT_ERROR)]) := by
  constructor
  · rintro resp rfl
    unfold handle_user_message
    rw [if_neg h1, if_neg (by omega)]
    rfl
  · rintro e rfl
    unfold handle_user_message
    rw [if_neg h1, if_neg (by omega)]
    rfl

/-- A sample spirit response for the ordering witness. -/
def demoResponse : SpiritResponse :=
  { text := ("Yes.").toList
    word_count := 1
    letter_timings := [200, 150, 150, 300]
    audio_url := none
    session_id := ("s1").toList
    question := ("Is anyone there?").toList }

theorem c9_event_order_witness :
    pyStrip (("Is anyone there?").toList) ≠ [] ∧
    (pyStrip (("Is anyone there?").toList)).length ≤ 500 ∧
    handle_user_message 1 (("Is anyone there?").toList) (("Ana").toList)
      (Except.ok demoResponse) =
      [.broadcastEvt none
          (.message_received (("Ana").toList)
            (pyStrip (("Is anyone there?").toList))),
        .broadcastEvt none .spirit_thinking,
        .broadcastEvt none (.spirit_response demoResponse)] :=
  ⟨by decide, by decide,
    (c9_event_order 1 (("Is anyone there?").toList) (("Ana").toList)
        (Except.ok demoResponse) (by decide) (by decide)).1
      demoResponse rfl⟩

end Seance
